import Mathlib

/-!
Verification of the silence-removal video editing pipeline
(`src/agents/video_editing_agent.py`).

The central pure algorithm is `generate_keep_segments`, which converts a
list of detected silence intervals into the list of intervals of the video
to keep.  Python integers are modelled by `Int` (arbitrary precision,
signed subtraction).  The imperative loops are modelled by structurally
recursive functions that perform exactly the source's per-iteration steps.
-/

namespace VideoEditingAgent

/-- The per-silence cursor sweep of `generate_keep_segments`
(`video_editing_agent.py` lines 119-133).  For each silence
`(silence_start, silence_end)`: if `silence_start > current_pos + padding_ms`
a keep segment `(current_pos, min (silence_start + padding_ms)
video_duration_ms)` is appended, and the cursor advances to
`max (silence_end - padding_ms) current_pos`.  After the loop, a final
segment `(current_pos, video_duration_ms)` is appended when
`current_pos < video_duration_ms`. -/
def keep_loop (video_duration_ms padding_ms : Int) :
    List (Int × Int) → Int → List (Int × Int)
  | [], current_pos =>
      if current_pos < video_duration_ms then [(current_pos, video_duration_ms)] else []
  | (silence_start, silence_end) :: rest, current_pos =>
      (if current_pos + padding_ms < silence_start then
        [(current_pos, min (silence_start + padding_ms) video_duration_ms)]
      else []) ++
      keep_loop video_duration_ms padding_ms rest
        (max (silence_end - padding_ms) current_pos)

/-- The "merge very close segments" loop of `generate_keep_segments`
(lines 136-141).  The Python `merged` list is carried in reverse so that
`merged[-1]` is the head of the accumulator: a segment whose start is less
than 50 ms past the end of the previous merged segment is coalesced into it,
otherwise it is appended. -/
def merge_loop (merged : List (Int × Int)) : List (Int × Int) → List (Int × Int)
  | [] => merged.reverse
  | segment :: rest =>
      match merged with
      | last :: prev =>
          if segment.1 - last.2 < 50 then merge_loop ((last.1, segment.2) :: prev) rest
          else merge_loop (segment :: last :: prev) rest
      | [] => merge_loop [segment] rest

/-- `generate_keep_segments` (lines 102-144): the cursor sweep starting at
`current_pos = 0` followed by the merge of very close segments. -/
def generate_keep_segments (video_duration_ms : Int)
    (silences : List (Int × Int)) (padding_ms : Int) : List (Int × Int) :=
  merge_loop [] (keep_loop video_duration_ms padding_ms silences 0)

/-- A silence list is valid when it is sorted by start and pairwise
non-overlapping (each interval ends no later than the next begins) and each
interval satisfies `0 ≤ start < end ≤ video_duration_ms`. -/
def ValidSilences (video_duration_ms : Int) (silences : List (Int × Int)) : Prop :=
  silences.Pairwise (fun a b => a.2 ≤ b.1) ∧
    ∀ q ∈ silences, 0 ≤ q.1 ∧ q.1 < q.2 ∧ q.2 ≤ video_duration_ms

instance (d : Int) (l : List (Int × Int)) : Decidable (ValidSilences d l) := by
  unfold ValidSilences; infer_instance

/-- Sum of the lengths `end - start` of a list of intervals. -/
def total_len (l : List (Int × Int)) : Int :=
  (l.map (fun q => q.2 - q.1)).sum

/-- Two-at-a-time formulation of the merge loop, used for reasoning: a pair
of adjacent segments closer than 50 ms is coalesced and reconsidered,
otherwise the first segment is final.  `merge_adjacent` is proved equal to
`merge_loop []` below. -/
def merge_adjacent : List (Int × Int) → List (Int × Int)
  | [] => []
  | [x] => [x]
  | x :: y :: rest =>
      if y.1 - x.2 < 50 then merge_adjacent ((x.1, y.2) :: rest)
      else x :: merge_adjacent (y :: rest)
termination_by l => l.length
decreasing_by all_goals simp

/-- Outcome of one `subprocess.run` invocation: exit status and captured
standard error. -/
structure ProcResult where
  returncode : Int
  stderr : String
deriving DecidableEq

/-- The external ffmpeg behaviour `assemble_video` encounters: one result
per per-segment extraction call (by segment index) and one result for the
final concatenation call. -/
structure FfmpegRuns where
  extract_result : Nat → ProcResult
  concat_result : ProcResult

/-- A log entry emitted through `self.logger`. -/
inductive LogEntry where
  | info (msg : String)
  | warning (msg : String)
  | error (msg : String)
deriving DecidableEq

/-- Log entries of one iteration of the per-segment extraction loop of
`assemble_video` (lines 195-221): an info line before the call, and a
warning — but no raise — when the call's exit status is non-zero. -/
def segment_log (runs : FfmpegRuns) (n i : Nat) : List LogEntry :=
  LogEntry.info ("Extracting segment " ++ toString (i + 1) ++ "/" ++ toString n) ::
    (if (runs.extract_result i).returncode ≠ 0 then
      [LogEntry.warning ("Segment extraction warning: " ++ (runs.extract_result i).stderr)]
    else [])

/-- Control flow of `assemble_video` (lines 186-245): every segment is
extracted in order (failures are logged and skipped over), then the
concatenation runs; a non-zero concatenation status logs an error and
raises `RuntimeError` (modelled as `Except.error`), otherwise the output
path is returned.  The returned pair is (outcome, emitted log). -/
def assemble_video (segments : List (Int × Int)) (runs : FfmpegRuns)
    (output_path : String) : Except String String × List LogEntry :=
  let ext_log := ((List.range segments.length).map (segment_log runs segments.length)).flatten
  let pre_log := ext_log ++ [LogEntry.info ("Concatenating segments to: " ++ output_path)]
  if runs.concat_result.returncode ≠ 0 then
    (Except.error ("Failed to concatenate: " ++ runs.concat_result.stderr),
      pre_log ++ [LogEntry.error ("Concatenation error: " ++ runs.concat_result.stderr)])
  else
    (Except.ok output_path,
      pre_log ++ [LogEntry.info ("Video assembled successfully: " ++ output_path)])

/-- Arguments of one `subprocess.run` call: command line, capture flags and
the optional `timeout` keyword. -/
structure SubprocessCall where
  argv : List String
  capture_output : Bool
  text : Bool
  call_timeout : Option Nat
deriving DecidableEq

/-- The audio-extraction call of `detect_silences` (lines 64-78): invoked
with `timeout=300`. -/
def detect_silences_extract_call (video_path temp_audio_path : String) : SubprocessCall :=
  { argv := ["ffmpeg", "-y", "-i", video_path, "-vn", "-acodec", "pcm_s16le",
      "-ar", "16000", "-ac", "1", temp_audio_path]
    capture_output := true
    text := true
    call_timeout := some 300 }

/-- The per-segment extraction call of `assemble_video` (lines 205-221):
`subprocess.run(cmd, capture_output=True, text=True)` with no timeout
keyword.  The numeric `-ss`/`-t` arguments are passed as already rendered
strings. -/
def assemble_segment_call (input_path start_sec duration_sec segment_path : String) :
    SubprocessCall :=
  { argv := ["ffmpeg", "-y", "-ss", start_sec, "-i", input_path, "-t", duration_sec,
      "-c", "copy", "-avoid_negative_ts", "make_zero", segment_path]
    capture_output := true
    text := true
    call_timeout := none }

/-- The final concatenation call of `assemble_video` (lines 231-243):
`subprocess.run(cmd, capture_output=True, text=True)` with no timeout
keyword. -/
def assemble_concat_call (concat_list_path output_path : String) : SubprocessCall :=
  { argv := ["ffmpeg", "-y", "-f", "concat", "-safe", "0", "-i", concat_list_path,
      "-c", "copy", output_path]
    capture_output := true
    text := true
    call_timeout := none }

/-- The `ffprobe` duration call of `get_video_duration_ms` (lines 148-156):
no timeout keyword either. -/
def ffprobe_duration_call (video_path : String) : SubprocessCall :=
  { argv := ["ffprobe", "-v", "error", "-show_entries", "format=duration",
      "-of", "default=noprint_wrappers=1:nokey=1", video_path]
    capture_output := true
    text := true
    call_timeout := none }

/-- A concrete ffmpeg behaviour for the `assemble_video` witness: extraction
of segment 0 fails with stderr `"bad"`, all other calls succeed. -/
def demo_runs : FfmpegRuns :=
  { extract_result := fun i =>
      if i = 0 then { returncode := 1, stderr := "bad" }
      else { returncode := 0, stderr := "" }
    concat_result := { returncode := 0, stderr := "" } }

/-- The accumulator of `merge_loop` below its head is frozen: only the head
of the (reversed) accumulator is ever modified. -/
theorem merge_loop_acc :
    ∀ (segs : List (Int × Int)) (last : Int × Int) (prev : List (Int × Int)),
      merge_loop (last :: prev) segs = prev.reverse ++ merge_loop [last] segs := by
  intro segs
  induction segs with
  | nil => intro last prev; simp [merge_loop]
  | cons seg rest ih =>
      intro last prev
      by_cases h : seg.1 - last.2 < 50
      · simp only [merge_loop, if_pos h]
        rw [ih (last.1, seg.2) prev, ih (last.1, seg.2) []]
      · simp only [merge_loop, if_neg h]
        rw [ih seg (last :: prev), ih seg [last]]
        simp

/-- `merge_adjacent` computes the same result as the source's merge loop. -/
theorem merge_adjacent_eq_loop :
    ∀ (segs : List (Int × Int)) (x : Int × Int),
      merge_adjacent (x :: segs) = merge_loop [x] segs := by
  intro segs
  induction segs with
  | nil => intro x; simp [merge_adjacent, merge_loop]
  | cons y rest ih =>
      intro x
      by_cases h : y.1 - x.2 < 50
      · rw [show merge_adjacent (x :: y :: rest) = merge_adjacent ((x.1, y.2) :: rest) by
          simp [merge_adjacent, h]]
        rw [ih (x.1, y.2)]
        simp only [merge_loop, if_pos h]
      · rw [show merge_adjacent (x :: y :: rest) = x :: merge_adjacent (y :: rest) by
          simp [merge_adjacent, h]]
        rw [ih y]
        simp only [merge_loop, if_neg h]
        rw [merge_loop_acc rest y [x]]
        simp

/-- The planner is the cursor sweep followed by `merge_adjacent`. -/
theorem generate_keep_segments_eq_adjacent
    (video_duration_ms padding_ms : Int) (silences : List (Int × Int)) :
    generate_keep_segments video_duration_ms silences padding_ms =
      merge_adjacent (keep_loop video_duration_ms padding_ms silences 0) := by
  unfold generate_keep_segments
  cases h : keep_loop video_duration_ms padding_ms silences 0 with
  | nil => simp [merge_loop, merge_adjacent]
  | cons x xs =>
      rw [show merge_loop [] (x :: xs) = merge_loop [x] xs by simp [merge_loop]]
      rw [merge_adjacent_eq_loop]

/-- Merging never invents interval ends: any property of the ends of the
input segments holds for the ends of the merged segments. -/
theorem merge_adjacent_snd_prop (P : Int → Prop) :
    ∀ l : List (Int × Int), (∀ q ∈ l, P q.2) → ∀ q ∈ merge_adjacent l, P q.2 := by
  intro l
  induction l using merge_adjacent.induct with
  | case1 => simp [merge_adjacent]
  | case2 x => simpa [merge_adjacent] using fun h => h
  | case3 x y rest h ih =>
      intro hP q hq
      rw [show merge_adjacent (x :: y :: rest) = merge_adjacent ((x.1, y.2) :: rest) by
        simp [merge_adjacent, h]] at hq
      refine ih ?_ q hq
      intro r hr
      rcases List.mem_cons.mp hr with hr | hr
      · rw [hr]; exact hP y (by simp)
      · exact hP r (by simp [hr])
  | case4 x y rest h ih =>
      intro hP q hq
      rw [show merge_adjacent (x :: y :: rest) = x :: merge_adjacent (y :: rest) by
        simp [merge_adjacent, h]] at hq
      rcases List.mem_cons.mp hq with hq | hq
      · rw [hq]; exact hP x (by simp)
      · exact ih (fun r hr => hP r (by simp [List.mem_cons.mp hr])) q hq

/-- The merged list keeps the start of its first segment. -/
theorem merge_adjacent_head :
    ∀ (rest : List (Int × Int)) (x : Int × Int),
      ∃ c tl, merge_adjacent (x :: rest) = (x.1, c) :: tl := by
  intro rest
  induction rest with
  | nil => intro x; exact ⟨x.2, [], by simp [merge_adjacent]⟩
  | cons y t ih =>
      intro x
      by_cases h : y.1 - x.2 < 50
      · obtain ⟨c, tl, hc⟩ := ih (x.1, y.2)
        refine ⟨c, tl, ?_⟩
        rw [show merge_adjacent (x :: y :: t) = merge_adjacent ((x.1, y.2) :: t) by
          simp [merge_adjacent, h]]
        exact hc
      · exact ⟨x.2, merge_adjacent (y :: t), by simp [merge_adjacent, h]⟩

/-- Under the pre-merge invariant (starts and ends both non-decreasing along
the list, each start before its end), merging yields segments whose starts
and ends come from input segments, with `start < end`, and consecutive
merged segments separated by at least the 50 ms threshold. -/
theorem merge_adjacent_members :
    ∀ l : List (Int × Int),
      List.Chain' (fun a b : Int × Int => a.1 ≤ b.1 ∧ a.2 ≤ b.2) l →
      (∀ q ∈ l, q.1 < q.2) →
      (∀ q ∈ merge_adjacent l,
        (∃ q1 ∈ l, q.1 = q1.1) ∧ (∃ q2 ∈ l, q.2 = q2.2) ∧ q.1 < q.2) ∧
      List.Chain' (fun a b : Int × Int => a.2 + 50 ≤ b.1) (merge_adjacent l) := by
  intro l
  induction l using merge_adjacent.induct with
  | case1 => simp [merge_adjacent]
  | case2 x =>
      intro _ hlt
      refine ⟨?_, by simp [merge_adjacent]⟩
      intro q hq
      simp [merge_adjacent] at hq
      exact ⟨⟨x, by simp, by rw [hq]⟩, ⟨x, by simp, by rw [hq]⟩,
        by rw [hq]; exact hlt x (by simp)⟩
  | case3 x y rest h ih =>
      intro hchain hlt
      have hxy : x.1 ≤ y.1 ∧ x.2 ≤ y.2 := (List.chain'_cons.mp hchain).1
      have hchain' : List.Chain' (fun a b : Int × Int => a.1 ≤ b.1 ∧ a.2 ≤ b.2)
          ((x.1, y.2) :: rest) := by
        refine List.chain'_cons'.mpr ⟨?_, ((List.chain'_cons.mp hchain).2).tail⟩
        intro b hb
        have hyb := (List.chain'_cons'.mp (List.chain'_cons.mp hchain).2).1 b hb
        exact ⟨le_trans hxy.1 hyb.1, hyb.2⟩
      have hlt' : ∀ q ∈ (x.1, y.2) :: rest, q.1 < q.2 := by
        intro q hq
        rcases List.mem_cons.mp hq with hq | hq
        · rw [hq]; exact lt_of_lt_of_le (hlt x (by simp)) hxy.2
        · exact hlt q (by simp [hq])
      obtain ⟨ihmem, ihchain⟩ := ih hchain' hlt'
      rw [show merge_adjacent (x :: y :: rest) = merge_adjacent ((x.1, y.2) :: rest) by
        simp [merge_adjacent, h]]
      refine ⟨?_, ihchain⟩
      intro q hq
      obtain ⟨⟨q1, hq1, he1⟩, ⟨q2, hq2, he2⟩, hlt2⟩ := ihmem q hq
      refine ⟨?_, ?_, hlt2⟩
      · rcases List.mem_cons.mp hq1 with h1 | h1
        · exact ⟨x, by simp, by rw [he1, h1]⟩
        · exact ⟨q1, by simp [h1], he1⟩
      · rcases List.mem_cons.mp hq2 with h2 | h2
        · exact ⟨y, by simp, by rw [he2, h2]⟩
        · exact ⟨q2, by simp [h2], he2⟩
  | case4 x y rest h ih =>
      intro hchain hlt
      obtain ⟨ihmem, ihchain⟩ := ih (List.chain'_cons.mp hchain).2
        (fun q hq => hlt q (by simp [List.mem_cons.mp hq]))
      rw [show merge_adjacent (x :: y :: rest) = x :: merge_adjacent (y :: rest) by
        simp [merge_adjacent, h]]
      constructor
      · intro q hq
        rcases List.mem_cons.mp hq with hq | hq
        · rw [hq]; exact ⟨⟨x, by simp⟩, ⟨x, by simp⟩, hlt x (by simp)⟩
        · obtain ⟨⟨q1, hq1, he1⟩, ⟨q2, hq2, he2⟩, hlt2⟩ := ihmem q hq
          exact ⟨⟨q1, by simp [hq1], he1⟩, ⟨q2, by simp [hq2], he2⟩, hlt2⟩
      · refine List.chain'_cons'.mpr ⟨?_, ihchain⟩
        intro b hb
        obtain ⟨c, tl, hc⟩ := merge_adjacent_head rest y
        rw [hc] at hb
        simp at hb
        subst hb
        show x.2 + 50 ≤ y.1
        omega

/-- Merging preserves coverage: any point covered by an input segment is
covered by a merged segment. -/
theorem merge_adjacent_covers :
    ∀ l : List (Int × Int),
      List.Chain' (fun a b : Int × Int => a.1 ≤ b.1 ∧ a.2 ≤ b.2) l →
      ∀ t : Int, (∃ q ∈ l, q.1 ≤ t ∧ t < q.2) →
        ∃ r ∈ merge_adjacent l, r.1 ≤ t ∧ t < r.2 := by
  intro l
  induction l using merge_adjacent.induct with
  | case1 => simp
  | case2 x =>
      intro _ t ht
      simpa [merge_adjacent] using ht
  | case3 x y rest h ih =>
      intro hchain t ht
      have hxy : x.1 ≤ y.1 ∧ x.2 ≤ y.2 := (List.chain'_cons.mp hchain).1
      have hchain' : List.Chain' (fun a b : Int × Int => a.1 ≤ b.1 ∧ a.2 ≤ b.2)
          ((x.1, y.2) :: rest) := by
        refine List.chain'_cons'.mpr ⟨?_, ((List.chain'_cons.mp hchain).2).tail⟩
        intro b hb
        have hyb := (List.chain'_cons'.mp (List.chain'_cons.mp hchain).2).1 b hb
        exact ⟨le_trans hxy.1 hyb.1, hyb.2⟩
      rw [show merge_adjacent (x :: y :: rest) = merge_adjacent ((x.1, y.2) :: rest) by
        simp [merge_adjacent, h]]
      refine ih hchain' t ?_
      obtain ⟨q, hq, hcov⟩ := ht
      rcases List.mem_cons.mp hq with hq | hq
      · exact ⟨(x.1, y.2), by simp, by
          rw [hq] at hcov
          exact ⟨hcov.1, lt_of_lt_of_le hcov.2 hxy.2⟩⟩
      rcases List.mem_cons.mp hq with hq | hq
      · exact ⟨(x.1, y.2), by simp, by
          rw [hq] at hcov
          exact ⟨le_trans hxy.1 hcov.1, hcov.2⟩⟩
      · exact ⟨q, by simp [hq], hcov⟩
  | case4 x y rest h ih =>
      intro hchain t ht
      rw [show merge_adjacent (x :: y :: rest) = x :: merge_adjacent (y :: rest) by
        simp [merge_adjacent, h]]
      obtain ⟨q, hq, hcov⟩ := ht
      rcases List.mem_cons.mp hq with hq | hq
      · exact ⟨x, by simp, by rw [hq] at hcov; exact hcov⟩
      · obtain ⟨r, hr, hrc⟩ := ih (List.chain'_cons.mp hchain).2 t ⟨q, hq, hcov⟩
        exact ⟨r, by simp [hr], hrc⟩

/-- When all adjacent gaps are already at least 50 ms, merging changes
nothing. -/
theorem merge_adjacent_of_gap :
    ∀ l : List (Int × Int),
      List.Chain' (fun a b : Int × Int => a.2 + 50 ≤ b.1) l →
      merge_adjacent l = l := by
  intro l
  induction l using merge_adjacent.induct with
  | case1 => simp [merge_adjacent]
  | case2 x => simp [merge_adjacent]
  | case3 x y rest h ih =>
      intro hchain
      have := (List.chain'_cons.mp hchain).1
      omega
  | case4 x y rest h ih =>
      intro hchain
      rw [show merge_adjacent (x :: y :: rest) = x :: merge_adjacent (y :: rest) by
        simp [merge_adjacent, h]]
      rw [ih (List.chain'_cons.mp hchain).2]

/-- In a list chained by 50 ms gaps whose members all satisfy
`start < end`, the head's end is at most every later start. -/
theorem gap_chain_all :
    ∀ (l : List (Int × Int)) (x : Int × Int),
      List.Chain' (fun a b : Int × Int => a.2 + 50 ≤ b.1) (x :: l) →
      (∀ q ∈ l, q.1 < q.2) → ∀ y ∈ l, x.2 ≤ y.1 := by
  intro l
  induction l with
  | nil => intro x _ _ y hy; simp at hy
  | cons z t ih =>
      intro x hchain hlt y hy
      obtain ⟨hxz, hchain'⟩ := List.chain'_cons.mp hchain
      rcases List.mem_cons.mp hy with hy | hy
      · rw [hy]; omega
      · have hz := ih z hchain' (fun q hq => hlt q (by simp [hq])) y hy
        have hzlt := hlt z (by simp)
        omega

/-- A 50 ms gap chain of proper intervals is sorted by start and pairwise
non-overlapping. -/
theorem gap_chain_pairwise :
    ∀ l : List (Int × Int),
      List.Chain' (fun a b : Int × Int => a.2 + 50 ≤ b.1) l →
      (∀ q ∈ l, q.1 < q.2) →
      l.Pairwise (fun a b : Int × Int => a.1 < b.1 ∧ a.2 ≤ b.1) := by
  intro l
  induction l with
  | nil => intro _ _; simp
  | cons x t ih =>
      intro hchain hlt
      refine List.pairwise_cons.mpr ⟨?_, ih hchain.tail (fun q hq => hlt q (by simp [hq]))⟩
      intro y hy
      have h1 := gap_chain_all t x hchain (fun q hq => hlt q (by simp [hq])) y hy
      have h2 := hlt x (by simp)
      exact ⟨by omega, h1⟩

/-- Invariants of the cursor sweep on a valid silence list: every produced
segment has `cur ≤ start < end ≤ duration`, `0 ≤ start`, its end is either
the duration or `min (silence_start + padding) duration` for one of the
silences, and the produced list has non-decreasing starts and ends. -/
theorem keep_loop_spec (video_duration_ms padding_ms : Int) (hpad : 0 ≤ padding_ms) :
    ∀ (silences : List (Int × Int)) (cur : Int),
      silences.Pairwise (fun a b => a.2 ≤ b.1) →
      (∀ q ∈ silences, 0 ≤ q.1 ∧ q.1 < q.2 ∧ q.2 ≤ video_duration_ms) →
      0 ≤ cur → cur ≤ video_duration_ms →
      (∀ q ∈ keep_loop video_duration_ms padding_ms silences cur,
          (0 ≤ q.1 ∧ q.1 < q.2 ∧ q.2 ≤ video_duration_ms) ∧ cur ≤ q.1 ∧
          (q.2 = video_duration_ms ∨
            ∃ se ∈ silences, q.2 = min (se.1 + padding_ms) video_duration_ms)) ∧
      List.Chain' (fun a b : Int × Int => a.1 ≤ b.1 ∧ a.2 ≤ b.2)
        (keep_loop video_duration_ms padding_ms silences cur) := by
  intro silences
  induction silences with
  | nil =>
      intro cur _ _ hc0 hcd
      by_cases h : cur < video_duration_ms
      · refine ⟨?_, by simp [keep_loop, h]⟩
        intro q hq
        simp [keep_loop, h] at hq
        rw [hq]
        exact ⟨⟨hc0, h, le_refl _⟩, le_refl _, Or.inl rfl⟩
      · refine ⟨?_, by simp [keep_loop, h]⟩
        intro q hq
        simp [keep_loop, h] at hq
  | cons se rest ih =>
      obtain ⟨s, e⟩ := se
      intro cur hpair hval hc0 hcd
      obtain ⟨hs0, hse, hed⟩ := hval (s, e) (by simp)
      have hpair' := (List.pairwise_cons.mp hpair).2
      have hrel : ∀ q ∈ rest, e ≤ q.1 := (List.pairwise_cons.mp hpair).1
      have hval' : ∀ q ∈ rest, 0 ≤ q.1 ∧ q.1 < q.2 ∧ q.2 ≤ video_duration_ms :=
        fun q hq => hval q (by simp [hq])
      have hc0' : 0 ≤ max (e - padding_ms) cur := le_trans hc0 (le_max_right _ _)
      have hcd' : max (e - padding_ms) cur ≤ video_duration_ms :=
        max_le (by omega) hcd
      obtain ⟨ihmem, ihchain⟩ := ih (max (e - padding_ms) cur) hpair' hval' hc0' hcd'
      by_cases h : cur + padding_ms < s
      · rw [show keep_loop video_duration_ms padding_ms ((s, e) :: rest) cur =
            (cur, min (s + padding_ms) video_duration_ms) ::
              keep_loop video_duration_ms padding_ms rest (max (e - padding_ms) cur) by
          simp [keep_loop, h]]
        constructor
        · intro q hq
          rcases List.mem_cons.mp hq with hq | hq
          · rw [hq]
            refine ⟨⟨hc0, ?_, min_le_right _ _⟩, le_refl _,
              Or.inr ⟨(s, e), by simp, rfl⟩⟩
            show cur < min (s + padding_ms) video_duration_ms
            rw [lt_min_iff]
            omega
          · obtain ⟨hq1, hq2, hq3⟩ := ihmem q hq
            refine ⟨hq1, le_trans (le_max_right _ _) hq2, ?_⟩
            rcases hq3 with hq3 | ⟨se', hse', he'⟩
            · exact Or.inl hq3
            · exact Or.inr ⟨se', by simp [hse'], he'⟩
        · refine List.chain'_cons'.mpr ⟨?_, ihchain⟩
          intro b hb
          have hbm := List.mem_of_mem_head? hb
          obtain ⟨hb1, hb2, hb3⟩ := ihmem b hbm
          refine ⟨le_trans (le_max_right _ _) hb2, ?_⟩
          rcases hb3 with hb3 | ⟨se', hse', he'⟩
          · rw [hb3]; exact min_le_right _ _
          · rw [he']
            have := hrel se' hse'
            exact min_le_min (by omega) (le_refl _)
      · rw [show keep_loop video_duration_ms padding_ms ((s, e) :: rest) cur =
            keep_loop video_duration_ms padding_ms rest (max (e - padding_ms) cur) by
          simp [keep_loop, h]]
        refine ⟨?_, ihchain⟩
        intro q hq
        obtain ⟨hq1, hq2, hq3⟩ := ihmem q hq
        refine ⟨hq1, le_trans (le_max_right _ _) hq2, ?_⟩
        rcases hq3 with hq3 | ⟨se', hse', he'⟩
        · exact Or.inl hq3
        · exact Or.inr ⟨se', by simp [hse'], he'⟩

/-- Completeness of the cursor sweep: a point of `[cur, duration)` not
covered by a produced keep segment lies within `padding_ms` of some
silence interval (before its end, at most `padding_ms` before its
start). -/
theorem keep_loop_cover (video_duration_ms padding_ms : Int) (hpad : 0 ≤ padding_ms) :
    ∀ (silences : List (Int × Int)) (cur t : Int),
      cur ≤ t → t < video_duration_ms →
      (∀ q ∈ keep_loop video_duration_ms padding_ms silences cur,
        ¬(q.1 ≤ t ∧ t < q.2)) →
      ∃ q ∈ silences, q.1 - padding_ms ≤ t ∧ t ≤ q.2 := by
  intro silences
  induction silences with
  | nil =>
      intro cur t hct htd hun
      by_cases h : cur < video_duration_ms
      · exact absurd ⟨hct, htd⟩ (hun (cur, video_duration_ms) (by simp [keep_loop, h]))
      · exfalso; omega
  | cons se rest ih =>
      obtain ⟨s, e⟩ := se
      intro cur t hct htd hun
      by_cases h : cur + padding_ms < s
      · have hhead := hun (cur, min (s + padding_ms) video_duration_ms)
          (by simp [keep_loop, h])
        have hmin : min (s + padding_ms) video_duration_ms ≤ t := by
          by_contra hx
          exact hhead ⟨hct, by omega⟩
        have hsp : s + padding_ms ≤ t := by
          rcases min_cases (s + padding_ms) video_duration_ms with ⟨h1, _⟩ | ⟨h1, h2⟩
          · omega
          · omega
        by_cases h2 : max (e - padding_ms) cur ≤ t
        · obtain ⟨q, hq, hb⟩ := ih (max (e - padding_ms) cur) t h2 htd
            (fun q hq => hun q (by
              rw [show keep_loop video_duration_ms padding_ms ((s, e) :: rest) cur =
                  (cur, min (s + padding_ms) video_duration_ms) ::
                    keep_loop video_duration_ms padding_ms rest
                      (max (e - padding_ms) cur) by
                simp [keep_loop, h]]
              simp [hq]))
          exact ⟨q, by simp [hq], hb⟩
        · have hmax : t < max (e - padding_ms) cur := not_le.mp h2
          have hte : t < e - padding_ms := by
            rcases max_cases (e - padding_ms) cur with ⟨h1, _⟩ | ⟨h1, _⟩ <;> omega
          exact ⟨(s, e), by simp, by omega⟩
      · by_cases h2 : max (e - padding_ms) cur ≤ t
        · obtain ⟨q, hq, hb⟩ := ih (max (e - padding_ms) cur) t h2 htd
            (fun q hq => hun q (by
              rw [show keep_loop video_duration_ms padding_ms ((s, e) :: rest) cur =
                  keep_loop video_duration_ms padding_ms rest
                    (max (e - padding_ms) cur) by
                simp [keep_loop, h]]
              exact hq))
          exact ⟨q, by simp [hq], hb⟩
        · have hmax : t < max (e - padding_ms) cur := not_le.mp h2
          have hte : t < e - padding_ms := by
            rcases max_cases (e - padding_ms) cur with ⟨h1, _⟩ | ⟨h1, _⟩ <;> omega
          exact ⟨(s, e), by simp, by omega⟩

/-- Exact duration accounting of the cursor sweep with zero padding: the
kept length plus the silent length equals the remaining duration. -/
theorem keep_loop_sum (video_duration_ms : Int) :
    ∀ (silences : List (Int × Int)) (cur : Int),
      silences.Pairwise (fun a b => a.2 ≤ b.1) →
      (∀ q ∈ silences, q.1 < q.2 ∧ q.2 ≤ video_duration_ms) →
      (∀ q ∈ silences, cur ≤ q.1) →
      cur ≤ video_duration_ms →
      total_len (keep_loop video_duration_ms 0 silences cur) + total_len silences =
        video_duration_ms - cur := by
  intro silences
  induction silences with
  | nil =>
      intro cur _ _ _ hcd
      by_cases h : cur < video_duration_ms <;> simp [keep_loop, h, total_len] <;> omega
  | cons se rest ih =>
      obtain ⟨s, e⟩ := se
      intro cur hpair hval hcur hcd
      obtain ⟨hse, hed⟩ := hval (s, e) (by simp)
      have hcs : cur ≤ s := hcur (s, e) (by simp)
      have hmax : max e cur = e := max_eq_left (by omega)
      have hrel : ∀ q ∈ rest, e ≤ q.1 := (List.pairwise_cons.mp hpair).1
      have ihh := ih e (List.pairwise_cons.mp hpair).2
        (fun q hq => hval q (by simp [hq])) hrel hed
      by_cases h : cur < s
      · have hmin : min s video_duration_ms = s := min_eq_left (by omega)
        rw [show keep_loop video_duration_ms 0 ((s, e) :: rest) cur =
            (cur, min s video_duration_ms) ::
              keep_loop video_duration_ms 0 rest (max e cur) by
          simp [keep_loop, h]]
        rw [hmin, hmax]
        simp only [total_len, List.map_cons, List.sum_cons] at *
        omega
      · have hs : s = cur := by omega
        rw [show keep_loop video_duration_ms 0 ((s, e) :: rest) cur =
            keep_loop video_duration_ms 0 rest (max e cur) by
          simp [keep_loop, h]]
        rw [hmax]
        simp only [total_len, List.map_cons, List.sum_cons] at *
        omega

/-- With zero padding and silences at least 50 ms long, adjacent produced
keep segments are separated by at least 50 ms, so the merge step is the
identity. -/
theorem keep_loop_gap50 (video_duration_ms : Int) :
    ∀ (silences : List (Int × Int)) (cur : Int),
      silences.Pairwise (fun a b => a.2 ≤ b.1) →
      (∀ q ∈ silences, q.1 < q.2 ∧ q.2 ≤ video_duration_ms ∧ 50 ≤ q.2 - q.1) →
      (∀ q ∈ silences, cur ≤ q.1) →
      List.Chain' (fun a b : Int × Int => a.2 + 50 ≤ b.1)
        (keep_loop video_duration_ms 0 silences cur) ∧
      ∀ q ∈ keep_loop video_duration_ms 0 silences cur, cur ≤ q.1 := by
  intro silences
  induction silences with
  | nil =>
      intro cur _ _ _
      by_cases h : cur < video_duration_ms
      · refine ⟨by simp [keep_loop, h], ?_⟩
        intro q hq
        simp [keep_loop, h] at hq
        rw [hq]
      · refine ⟨by simp [keep_loop, h], ?_⟩
        intro q hq
        simp [keep_loop, h] at hq
  | cons se rest ih =>
      obtain ⟨s, e⟩ := se
      intro cur hpair hval hcur
      obtain ⟨hse, hed, hlen⟩ := hval (s, e) (by simp)
      have hcs : cur ≤ s := hcur (s, e) (by simp)
      have hmax : max e cur = e := max_eq_left (by omega)
      have hrel : ∀ q ∈ rest, e ≤ q.1 := (List.pairwise_cons.mp hpair).1
      obtain ⟨ihchain, ihmem⟩ := ih e (List.pairwise_cons.mp hpair).2
        (fun q hq => hval q (by simp [hq])) hrel
      by_cases h : cur < s
      · have hmin : min s video_duration_ms = s := min_eq_left (by omega)
        rw [show keep_loop video_duration_ms 0 ((s, e) :: rest) cur =
            (cur, min s video_duration_ms) ::
              keep_loop video_duration_ms 0 rest (max e cur) by
          simp [keep_loop, h]]
        rw [hmin, hmax]
        constructor
        · refine List.chain'_cons'.mpr ⟨?_, ihchain⟩
          intro b hb
          have hbm := List.mem_of_mem_head? hb
          have := ihmem b hbm
          show s + 50 ≤ b.1
          omega
        · intro q hq
          rcases List.mem_cons.mp hq with hq | hq
          · rw [hq]
          · exact le_trans (by omega) (ihmem q hq)
      · have hs : s = cur := by omega
        rw [show keep_loop video_duration_ms 0 ((s, e) :: rest) cur =
            keep_loop video_duration_ms 0 rest (max e cur) by
          simp [keep_loop, h]]
        rw [hmax]
        exact ⟨ihchain, fun q hq => le_trans (by omega) (ihmem q hq)⟩

/-- With zero padding, when the silence list ends with an interval reaching
the total duration, every segment produced by the sweep ends no later than
that last silence's start (the final-segment guard never fires). -/
theorem keep_loop_last_silence (video_duration_ms s e : Int)
    (hde : video_duration_ms ≤ e) :
    ∀ (silences : List (Int × Int)) (cur : Int),
      (∀ q ∈ silences, q.1 ≤ s) →
      ∀ q ∈ keep_loop video_duration_ms 0 (silences ++ [(s, e)]) cur, q.2 ≤ s := by
  intro silences
  induction silences with
  | nil =>
      intro cur _ q hq
      simp only [List.nil_append] at hq
      have hnd : ¬ (e < video_duration_ms) := by omega
      by_cases h : cur < s
      · rw [show keep_loop video_duration_ms 0 [(s, e)] cur =
            [(cur, min s video_duration_ms)] by
          simp [keep_loop, h, hnd]] at hq
        simp at hq
        rw [hq]
        show min s video_duration_ms ≤ s
        exact min_le_left _ _
      · rw [show keep_loop video_duration_ms 0 [(s, e)] cur = [] by
          simp [keep_loop, h, hnd]] at hq
        simp at hq
  | cons a rest ih =>
      obtain ⟨a1, a2⟩ := a
      intro cur hle q hq
      rw [List.cons_append] at hq
      by_cases h : cur < a1
      · rw [show keep_loop video_duration_ms 0 ((a1, a2) :: (rest ++ [(s, e)])) cur =
            (cur, min a1 video_duration_ms) ::
              keep_loop video_duration_ms 0 (rest ++ [(s, e)]) (max a2 cur) by
          simp [keep_loop, h]] at hq
        rcases List.mem_cons.mp hq with hq | hq
        · rw [hq]
          have ha1 : a1 ≤ s := hle (a1, a2) (by simp)
          show min a1 video_duration_ms ≤ s
          exact le_trans (min_le_left _ _) ha1
        · exact ih (max a2 cur) (fun r hr => hle r (by simp [hr])) q hq
      · rw [show keep_loop video_duration_ms 0 ((a1, a2) :: (rest ++ [(s, e)])) cur =
            keep_loop video_duration_ms 0 (rest ++ [(s, e)]) (max a2 cur) by
          simp [keep_loop, h]] at hq
        exact ih (max a2 cur) (fun r hr => hle r (by simp [hr])) q hq

/-- C1: on `total_duration_ms = 10000`, `silences = [(2000, 3000), (6000, 6500)]`
and `padding_ms = 100`, the planner returns exactly the keep intervals
`(0, 2100), (2900, 6100), (6400, 10000)` in that order. -/
theorem generate_keep_segments_example_case :
    generate_keep_segments 10000 [(2000, 3000), (6000, 6500)] 100 =
      [(0, 2100), (2900, 6100), (6400, 10000)] := by
  decide

/-- C4: with an empty silence list and a positive duration, the planner
returns the single keep interval `(0, total_duration_ms)`. -/
theorem generate_keep_segments_empty_silences
    (video_duration_ms padding_ms : Int)
    (hdur : 0 < video_duration_ms) (hpad : 0 ≤ padding_ms) :
    generate_keep_segments video_duration_ms [] padding_ms =
      [(0, video_duration_ms)] := by
  simp [generate_keep_segments, keep_loop, merge_loop, hdur]

/-- C4 witness: the no-silence identity at `total_duration_ms = 10000`,
`padding_ms = 100`. -/
theorem generate_keep_segments_empty_silences_witness :
    (0 : Int) < 10000 ∧ (0 : Int) ≤ 100 ∧
      generate_keep_segments 10000 [] 100 = [(0, 10000)] :=
  ⟨by decide, by decide,
    generate_keep_segments_empty_silences 10000 100 (by decide) (by decide)⟩

/-- C10: with a non-positive duration and no silences the planner returns
the empty list, not the interval `(0, total_duration_ms)`. -/
theorem generate_keep_segments_nonpositive_duration
    (video_duration_ms padding_ms : Int) (hdur : video_duration_ms ≤ 0) :
    generate_keep_segments video_duration_ms [] padding_ms = [] ∧
      generate_keep_segments video_duration_ms [] padding_ms ≠
        [(0, video_duration_ms)] := by
  have h : ¬ (0 : Int) < video_duration_ms := not_lt.mpr hdur
  constructor
  · simp [generate_keep_segments, keep_loop, merge_loop, h]
  · simp [generate_keep_segments, keep_loop, merge_loop, h]

/-- C10 witness: at `total_duration_ms = -5`, `padding_ms = 100` the planner
returns `[]`. -/
theorem generate_keep_segments_nonpositive_duration_witness :
    (-5 : Int) ≤ 0 ∧
      (generate_keep_segments (-5) [] 100 = [] ∧
        generate_keep_segments (-5) [] 100 ≠ [(0, -5)]) :=
  ⟨by decide, generate_keep_segments_nonpositive_duration (-5) 100 (by decide)⟩

/-- C7 counterexample: `generate_keep_segments` has no validation and never
raises.  On the malformed (reversed) silence `(5000, 1000)` with duration
`10000` and padding `100` it simply runs the cursor sweep and returns the
keep-interval list `[(0, 10000)]` instead of rejecting the input. -/
theorem generate_keep_segments_no_rejection_counterexample :
    generate_keep_segments 10000 [(5000, 1000)] 100 = [(0, 10000)] := by
  decide

/-- C7 amended: the planner performs no input validation; on invalid inputs
it still returns a plain list.  In particular, for any non-positive duration
and a single (possibly reversed) silence whose start does not exceed the
padding, it returns `[]`. -/
theorem generate_keep_segments_invalid_input_returns
    (video_duration_ms padding_ms s e : Int)
    (hdur : video_duration_ms ≤ 0) (hs : s ≤ padding_ms) :
    generate_keep_segments video_duration_ms [(s, e)] padding_ms = [] := by
  have h1 : ¬ (padding_ms < s) := by omega
  have h2 : ¬ (max (e - padding_ms) 0 < video_duration_ms) := by
    have := le_max_right (e - padding_ms) (0 : Int)
    omega
  simp [generate_keep_segments, keep_loop, merge_loop, h1, h2]

/-- C7 amended witness: duration `-5`, reversed silence `(3, 1)`, padding
`100` produce `[]` rather than an error. -/
theorem generate_keep_segments_invalid_input_returns_witness :
    (-5 : Int) ≤ 0 ∧ (3 : Int) ≤ 100 ∧
      generate_keep_segments (-5) [(3, 1)] 100 = [] :=
  ⟨by decide, by decide,
    generate_keep_segments_invalid_input_returns (-5) 100 3 1 (by decide) (by decide)⟩

/-- C2: on every valid input (positive duration, non-negative padding,
sorted pairwise non-overlapping in-bounds silences) the planner's output is
sorted by start, pairwise non-overlapping, each interval satisfies
`start < end`, and each lies within `[0, total_duration_ms]`. -/
theorem generate_keep_segments_invariants
    (video_duration_ms padding_ms : Int) (silences : List (Int × Int))
    (hdur : 0 < video_duration_ms) (hpad : 0 ≤ padding_ms)
    (hvalid : ValidSilences video_duration_ms silences) :
    (generate_keep_segments video_duration_ms silences padding_ms).Pairwise
      (fun a b : Int × Int => a.1 < b.1 ∧ a.2 ≤ b.1) ∧
    ∀ q ∈ generate_keep_segments video_duration_ms silences padding_ms,
      0 ≤ q.1 ∧ q.1 < q.2 ∧ q.2 ≤ video_duration_ms := by
  obtain ⟨hpair, hin⟩ := hvalid
  obtain ⟨hmem, hchain⟩ := keep_loop_spec video_duration_ms padding_ms hpad silences 0
    hpair hin (le_refl 0) (le_of_lt hdur)
  rw [generate_keep_segments_eq_adjacent]
  have hlt : ∀ q ∈ keep_loop video_duration_ms padding_ms silences 0, q.1 < q.2 :=
    fun q hq => ((hmem q hq).1).2.1
  obtain ⟨hmem2, hchain2⟩ := merge_adjacent_members _ hchain hlt
  have hbounds : ∀ q ∈ merge_adjacent (keep_loop video_duration_ms padding_ms silences 0),
      0 ≤ q.1 ∧ q.1 < q.2 ∧ q.2 ≤ video_duration_ms := by
    intro q hq
    obtain ⟨⟨q1, hq1, he1⟩, ⟨q2, hq2, he2⟩, hlt2⟩ := hmem2 q hq
    exact ⟨by rw [he1]; exact ((hmem q1 hq1).1).1, hlt2,
      by rw [he2]; exact ((hmem q2 hq2).1).2.2⟩
  exact ⟨gap_chain_pairwise _ hchain2 (fun q hq => (hbounds q hq).2.1), hbounds⟩

/-- C2 witness: a valid input whose first silence is shorter than
`2 * padding_ms` (so the raw sweep overlaps and the merge coalesces). -/
theorem generate_keep_segments_invariants_witness :
    (0 : Int) < 10000 ∧ (0 : Int) ≤ 100 ∧
      ValidSilences 10000 [(1000, 1050), (2000, 3000)] ∧
      ((generate_keep_segments 10000 [(1000, 1050), (2000, 3000)] 100).Pairwise
          (fun a b : Int × Int => a.1 < b.1 ∧ a.2 ≤ b.1) ∧
        ∀ q ∈ generate_keep_segments 10000 [(1000, 1050), (2000, 3000)] 100,
          0 ≤ q.1 ∧ q.1 < q.2 ∧ q.2 ≤ 10000) :=
  ⟨by decide, by decide, by decide,
    generate_keep_segments_invariants 10000 100 [(1000, 1050), (2000, 3000)]
      (by decide) (by decide) (by decide)⟩

/-- C5: on a valid input, every point of `[0, total_duration_ms)` not
covered by a keep interval lies within a silence interval or within the
padding plus 50 ms merge tolerance of one. -/
theorem generate_keep_segments_completeness
    (video_duration_ms padding_ms t : Int) (silences : List (Int × Int))
    (hdur : 0 < video_duration_ms) (hpad : 0 ≤ padding_ms)
    (hvalid : ValidSilences video_duration_ms silences)
    (ht0 : 0 ≤ t) (htd : t < video_duration_ms)
    (hun : ∀ q ∈ generate_keep_segments video_duration_ms silences padding_ms,
      ¬(q.1 ≤ t ∧ t < q.2)) :
    ∃ q ∈ silences, q.1 - (padding_ms + 50) ≤ t ∧ t ≤ q.2 + (padding_ms + 50) := by
  obtain ⟨hpair, hin⟩ := hvalid
  obtain ⟨hmem, hchain⟩ := keep_loop_spec video_duration_ms padding_ms hpad silences 0
    hpair hin (le_refl 0) (le_of_lt hdur)
  have hun' : ∀ q ∈ keep_loop video_duration_ms padding_ms silences 0,
      ¬(q.1 ≤ t ∧ t < q.2) := by
    intro q hq hcov
    obtain ⟨r, hr, hrc⟩ := merge_adjacent_covers _ hchain t ⟨q, hq, hcov⟩
    exact hun r (by rw [generate_keep_segments_eq_adjacent]; exact hr) hrc
  obtain ⟨q, hq, h1, h2⟩ :=
    keep_loop_cover video_duration_ms padding_ms hpad silences 0 t ht0 htd hun'
  exact ⟨q, hq, by omega, by omega⟩

/-- C5 witness: `t = 2500` is uncovered on the spec's worked example and
indeed lies inside the silence `(2000, 3000)` up to the tolerance. -/
theorem generate_keep_segments_completeness_witness :
    (0 : Int) < 10000 ∧ (0 : Int) ≤ 100 ∧
      ValidSilences 10000 [(2000, 3000), (6000, 6500)] ∧
      (0 : Int) ≤ 2500 ∧ (2500 : Int) < 10000 ∧
      (∀ q ∈ generate_keep_segments 10000 [(2000, 3000), (6000, 6500)] 100,
        ¬(q.1 ≤ 2500 ∧ 2500 < q.2)) ∧
      ∃ q ∈ [((2000 : Int), (3000 : Int)), (6000, 6500)],
        q.1 - (100 + 50) ≤ 2500 ∧ 2500 ≤ q.2 + (100 + 50) :=
  ⟨by decide, by decide, by decide, by decide, by decide, by decide,
    generate_keep_segments_completeness 10000 100 2500 [(2000, 3000), (6000, 6500)]
      (by decide) (by decide) (by decide) (by decide) (by decide) (by decide)⟩

/-- C6: with zero padding and each silence at least 50 ms long, the kept
time plus the silent time is exactly the total duration. -/
theorem generate_keep_segments_duration_accounting
    (video_duration_ms : Int) (silences : List (Int × Int))
    (hdur : 0 ≤ video_duration_ms)
    (hvalid : ValidSilences video_duration_ms silences)
    (hlen : ∀ q ∈ silences, 50 ≤ q.2 - q.1) :
    total_len (generate_keep_segments video_duration_ms silences 0) +
      total_len silences = video_duration_ms := by
  obtain ⟨hpair, hin⟩ := hvalid
  have hcur : ∀ q ∈ silences, (0 : Int) ≤ q.1 := fun q hq => (hin q hq).1
  obtain ⟨hchain, _⟩ := keep_loop_gap50 video_duration_ms silences 0 hpair
    (fun q hq => ⟨(hin q hq).2.1, (hin q hq).2.2, hlen q hq⟩) hcur
  rw [generate_keep_segments_eq_adjacent, merge_adjacent_of_gap _ hchain]
  have := keep_loop_sum video_duration_ms silences 0 hpair
    (fun q hq => ⟨(hin q hq).2.1, (hin q hq).2.2⟩) hcur hdur
  omega

/-- C6 witness: the accounting identity on the spec's worked example with
zero padding. -/
theorem generate_keep_segments_duration_accounting_witness :
    (0 : Int) ≤ 10000 ∧
      ValidSilences 10000 [(2000, 3000), (6000, 6500)] ∧
      (∀ q ∈ [((2000 : Int), (3000 : Int)), (6000, 6500)], 50 ≤ q.2 - q.1) ∧
      total_len (generate_keep_segments 10000 [(2000, 3000), (6000, 6500)] 0) +
        total_len [(2000, 3000), (6000, 6500)] = 10000 :=
  ⟨by decide, by decide, by decide,
    generate_keep_segments_duration_accounting 10000 [(2000, 3000), (6000, 6500)]
      (by decide) (by decide) (by decide)⟩

/-- C3 amended: with `padding_ms = 0` and a valid silence list whose last
interval ends exactly at the total duration, the cursor ends at the
duration and no trailing keep interval is emitted: every returned interval
ends no later than that last silence's start. -/
theorem generate_keep_segments_end_silence_zero_padding
    (video_duration_ms s : Int) (silences : List (Int × Int))
    (hdur : 0 < video_duration_ms)
    (hvalid : ValidSilences video_duration_ms (silences ++ [(s, video_duration_ms)])) :
    ∀ q ∈ generate_keep_segments video_duration_ms
        (silences ++ [(s, video_duration_ms)]) 0, q.2 ≤ s := by
  obtain ⟨hpair, hin⟩ := hvalid
  have hle : ∀ q ∈ silences, q.1 ≤ s := by
    intro q hq
    have h1 := (List.pairwise_append.mp hpair).2.2 q hq (s, video_duration_ms) (by simp)
    have h2 := (hin q (by simp [hq])).2.1
    show q.1 ≤ s
    omega
  rw [generate_keep_segments_eq_adjacent]
  exact merge_adjacent_snd_prop (fun z => z ≤ s) _
    (keep_loop_last_silence video_duration_ms s video_duration_ms (le_refl _)
      silences 0 hle)

/-- C3 amended witness: duration `10000`, silences `(2000, 3000)` and
`(9000, 10000)` (the last ending at the duration), no padding: every keep
interval ends at or before `9000`. -/
theorem generate_keep_segments_end_silence_zero_padding_witness :
    (0 : Int) < 10000 ∧
      ValidSilences 10000 ([(2000, 3000)] ++ [(9000, 10000)]) ∧
      ∀ q ∈ generate_keep_segments 10000 ([(2000, 3000)] ++ [(9000, 10000)]) 0,
        q.2 ≤ 9000 :=
  ⟨by decide, by decide,
    generate_keep_segments_end_silence_zero_padding 10000 9000 [(2000, 3000)]
      (by decide) (by decide)⟩

/-- C3 counterexample: with the single silence `(2000, 10000)` ending exactly
at the total duration `10000` and padding `100`, the cursor ends at
`9900 < 10000`, so a trailing keep interval `(9900, 10000)` IS emitted,
contrary to the claim. -/
theorem generate_keep_segments_trailing_keep_counterexample :
    generate_keep_segments 10000 [(2000, 10000)] 100 =
      [(0, 2100), (9900, 10000)] := by
  decide

/-- A failed per-segment extraction is logged but does not change the
control flow: every later and earlier segment is still processed and the
concatenation still runs. -/
theorem assemble_video_segment_log_mem
    (segments : List (Int × Int)) (runs : FfmpegRuns) (output_path : String)
    (j : Nat) (hj : j < segments.length) :
    ∀ x ∈ segment_log runs segments.length j,
      x ∈ (assemble_video segments runs output_path).2 := by
  intro x hx
  have hx2 : x ∈ ((List.range segments.length).map
      (segment_log runs segments.length)).flatten := by
    rw [List.mem_flatten]
    exact ⟨segment_log runs segments.length j,
      List.mem_map_of_mem _ (List.mem_range.mpr hj), hx⟩
  by_cases hc : runs.concat_result.returncode ≠ 0
  · simp [assemble_video, hc, hx2]
  · simp [assemble_video, hc, hx2]

/-- C8: in `assemble_video`, a non-zero exit status of an individual
per-segment extraction is logged as a warning and does not abort: every
segment still gets its extraction attempt logged and the result of the
whole operation depends only on the final concatenation, which returns the
output path on success and raises (an error) on a non-zero status. -/
theorem assemble_video_error_policy
    (segments : List (Int × Int)) (runs : FfmpegRuns) (output_path : String)
    (i : Nat) (hi : i < segments.length)
    (hfail : (runs.extract_result i).returncode ≠ 0) :
    (LogEntry.warning ("Segment extraction warning: " ++ (runs.extract_result i).stderr)
        ∈ (assemble_video segments runs output_path).2) ∧
    (∀ j, j < segments.length →
      LogEntry.info ("Extracting segment " ++ toString (j + 1) ++ "/" ++
          toString segments.length) ∈ (assemble_video segments runs output_path).2) ∧
    (runs.concat_result.returncode = 0 →
      (assemble_video segments runs output_path).1 = Except.ok output_path) ∧
    (runs.concat_result.returncode ≠ 0 →
      (assemble_video segments runs output_path).1 =
        Except.error ("Failed to concatenate: " ++ runs.concat_result.stderr)) := by
  refine ⟨?_, ?_, ?_, ?_⟩
  · exact assemble_video_segment_log_mem segments runs output_path i hi
      _ (by simp [segment_log, hfail])
  · intro j hj
    exact assemble_video_segment_log_mem segments runs output_path j hj
      _ (by simp [segment_log])
  · intro h0
    simp [assemble_video, h0]
  · intro hne
    simp [assemble_video, hne]

/-- C8 witness: two segments, extraction of segment 0 failing, successful
concatenation: the warning is logged, both segments are processed, and the
operation succeeds. -/
theorem assemble_video_error_policy_witness :
    (0 : Nat) < ([((0 : Int), (1000 : Int)), (2000, 3000)]).length ∧
    (demo_runs.extract_result 0).returncode ≠ 0 ∧
    ((LogEntry.warning ("Segment extraction warning: " ++ (demo_runs.extract_result 0).stderr)
        ∈ (assemble_video [(0, 1000), (2000, 3000)] demo_runs "output/edited.mp4").2) ∧
      (∀ j, j < ([((0 : Int), (1000 : Int)), (2000, 3000)]).length →
        LogEntry.info ("Extracting segment " ++ toString (j + 1) ++ "/" ++
            toString ([((0 : Int), (1000 : Int)), (2000, 3000)]).length) ∈
          (assemble_video [(0, 1000), (2000, 3000)] demo_runs "output/edited.mp4").2) ∧
      (demo_runs.concat_result.returncode = 0 →
        (assemble_video [(0, 1000), (2000, 3000)] demo_runs "output/edited.mp4").1 =
          Except.ok "output/edited.mp4") ∧
      (demo_runs.concat_result.returncode ≠ 0 →
        (assemble_video [(0, 1000), (2000, 3000)] demo_runs "output/edited.mp4").1 =
          Except.error ("Failed to concatenate: " ++ demo_runs.concat_result.stderr))) :=
  ⟨by decide, by decide,
    assemble_video_error_policy [(0, 1000), (2000, 3000)] demo_runs
      "output/edited.mp4" 0 (by decide) (by decide)⟩

/-- C9 counterexample: the per-segment extraction and final concatenation
calls of `assemble_video` are invoked with no timeout keyword at all, so it
is false that every long-running external media call of the edit pipeline
has an explicit timeout. -/
theorem pipeline_timeout_counterexample :
    (assemble_segment_call "input.mp4" "0.0" "1.0" "segment_0000.mp4").call_timeout
        = none ∧
      (assemble_concat_call "concat_list.txt" "output.mp4").call_timeout = none :=
  ⟨rfl, rfl⟩

/-- C9 amended: only the audio-extraction call of `detect_silences` carries
an explicit timeout (300 s); the per-segment extraction, the final
concatenation and the ffprobe duration call are all invoked without one. -/
theorem pipeline_timeout_only_audio_extraction
    (video_path temp_audio_path input_path start_sec duration_sec segment_path
      concat_list_path output_path : String) :
    (detect_silences_extract_call video_path temp_audio_path).call_timeout = some 300 ∧
    (assemble_segment_call input_path start_sec duration_sec segment_path).call_timeout
        = none ∧
    (assemble_concat_call concat_list_path output_path).call_timeout = none ∧
    (ffprobe_duration_call video_path).call_timeout = none :=
  ⟨rfl, rfl, rfl, rfl⟩

end VideoEditingAgent
